import Mathlib

/-!
Shallow embedding of `git-remote-branch-manager` (src/main.go).

Strings are modelled as `List Char` (Go strings under the operations the
program uses). External processes — git queries, the fzf selector, the
confirmation prompt — are modelled as explicit inputs (oracles), so every
function here is a pure translation of the corresponding Go code.
-/

namespace GitRBM

/-- Character-list form of a string literal. -/
def str (s : String) : List Char := s.data

/-- The ASCII escape character that starts an ANSI color code. -/
def esc : Char := '\x1b'

/-- Characters matched by the class `[0-9;]` in the `ansiStripper` regex
(main.go line 31: `"\033[[0-9;]*m"`). -/
def isAnsiBody (c : Char) : Bool := c.isDigit || c = ';'

/-- Length of the `ansiStripper` match at the head of the string, when there is
one: ESC, an opening bracket, a maximal run of digits or semicolons, then `m`.
(The character class excludes `m`, so the greedy run is unambiguous.) -/
def ansiMatchLen : List Char → Option Nat
  | c1 :: c2 :: rest =>
    if c1 = esc ∧ c2 = '[' then
      match rest.drop (rest.takeWhile isAnsiBody).length with
      | c3 :: _ => if c3 = 'm' then some ((rest.takeWhile isAnsiBody).length + 3) else none
      | [] => none
    else none
  | _ => none

/-- `ansiStripper.ReplaceAllString s ""` (main.go line 44), with explicit fuel:
scan left to right, removing each leftmost match and resuming after it. Each
step consumes at least one character, so `s.length` fuel suffices. -/
def stripAnsiFuel : Nat → List Char → List Char
  | 0, _ => []
  | _ + 1, [] => []
  | fuel + 1, c :: rest =>
    match ansiMatchLen (c :: rest) with
    | some n => stripAnsiFuel fuel (rest.drop (n - 1))
    | none => c :: stripAnsiFuel fuel rest

/-- Removal of all ANSI color codes, as `ansiStripper.ReplaceAllString s ""`. -/
def stripAnsi (s : List Char) : List Char := stripAnsiFuel s.length s

/-- Go's `unicode.IsSpace`, i.e. the Unicode White_Space property, as used by
`strings.TrimSpace`. -/
def isGoSpace (c : Char) : Bool :=
  c = ' ' || c = '\t' || c = '\n' || c = Char.ofNat 11 || c = Char.ofNat 12 || c = '\r' ||
  c = Char.ofNat 0x85 || c = Char.ofNat 0xA0 || c = Char.ofNat 0x1680 ||
  (0x2000 ≤ c.toNat && c.toNat ≤ 0x200A) ||
  c = Char.ofNat 0x2028 || c = Char.ofNat 0x2029 || c = Char.ofNat 0x202F ||
  c = Char.ofNat 0x205F || c = Char.ofNat 0x3000

/-- `strings.TrimSpace`: drop leading and trailing whitespace. -/
def trimSpace (s : List Char) : List Char :=
  List.rdropWhile isGoSpace (s.dropWhile isGoSpace)

/-- `pat` is a leading pattern of `s` (Boolean, structural). -/
def isPre : List Char → List Char → Bool
  | [], _ => true
  | _ :: _, [] => false
  | a :: as, b :: bs => a == b && isPre as bs

/-- `pat` occurs as a contiguous substring of `s` (as Go `strings.Contains`). -/
def hasPat (pat : List Char) : List Char → Bool
  | [] => isPre pat []
  | c :: cs => isPre pat (c :: cs) || hasPat pat cs

/-- The part of `s` before the first occurrence of `pat` (the whole of `s` when
`pat` does not occur): `strings.SplitN(s, pat, 2)[0]`. -/
def takeBefore (pat : List Char) : List Char → List Char
  | [] => []
  | c :: cs => if isPre pat (c :: cs) then [] else c :: takeBefore pat cs

/-- The part of `s` after the first occurrence of `pat`:
`strings.SplitN(s, pat, 2)[1]` when `pat` occurs. -/
def afterPat (pat : List Char) : List Char → List Char
  | [] => []
  | c :: cs => if isPre pat (c :: cs) then (c :: cs).drop pat.length else afterPat pat cs

/-- The separator `" ("` at which `cleanBranchName` truncates (main.go line 46). -/
def splitPat : List Char := [' ', '(']

/-- `cleanBranchName` (main.go lines 42-48): strip ANSI color codes, truncate at
the first `" ("`, trim surrounding whitespace. -/
def cleanBranchName (branchName : List Char) : List Char :=
  trimSpace (takeBefore splitPat (stripAnsi branchName))

/-- `strings.SplitN(s, sep, 2)`: two parts when `sep` occurs in `s`, otherwise
the whole string as a single part (`sep` is nonempty in every use here). -/
def splitN2 (sep s : List Char) : List (List Char) :=
  if hasPat sep s then [takeBefore sep s, afterPat sep s] else [s]

/-- The fixed protected-name list of `isProtectedBranch` (main.go line 91). -/
def protectedNames : List (List Char) := [str ("main"), str ("master")]

/-- `isProtectedBranch` (main.go lines 90-106): split on the first `"/"`; when a
separator is present compare the part after it, otherwise the whole argument,
against the protected names. -/
def isProtectedBranch (branchName : List Char) : Bool :=
  let parts := splitN2 (str ("/")) branchName
  let nameOnly := if parts.length = 2 then parts.getD 1 [] else branchName
  protectedNames.any (fun p => nameOnly == p)

/-- The tail of `s` after its first `'/'`, when `s` contains one. An
independent, single-pass formulation used to state the spec's description of
`isProtectedBranch`. -/
def tailAfterSlash : List Char → Option (List Char)
  | [] => none
  | c :: cs => if c = '/' then some cs else tailAfterSlash cs

/-- The name portion of a remote branch string per the spec: the portion after
the first `"/"` separator, or the whole argument when no separator is present. -/
def namePortion (s : List Char) : List Char := (tailAfterSlash s).getD s

/-- The spec's characterisation of a protected branch: the name portion equals,
case-sensitively, `"main"` or `"master"`. -/
def specProtected (s : List Char) : Prop :=
  namePortion s = str ("main") ∨ namePortion s = str ("master")

/-- `strings.HasSuffix s suf`. -/
def endsWith (suf s : List Char) : Bool := isPre suf.reverse s.reverse

/-- The filter of the listing loop (main.go line 191): a trimmed raw line is a
candidate iff it is nonempty and does not end in `"/HEAD"`. -/
def isCandidate (t : List Char) : Bool := !t.isEmpty && !endsWith (str ("/HEAD")) t

/-- `strings.Split s (string of one char sep)`: split at every separator,
keeping empty segments. -/
def splitOnChar (sep : Char) : List Char → List (List Char)
  | [] => [[]]
  | c :: cs =>
    if c = sep then [] :: splitOnChar sep cs
    else
      match splitOnChar sep cs with
      | [] => [[c]]
      | seg :: rest => (c :: seg) :: rest

/-- The external git state a run consults. `mergedQueryResult` is the combined
output of `git branch -r --merged HEAD`, or `none` when that process fails. -/
structure GitEnv where
  mergedQueryResult : Option (List Char)
deriving DecidableEq

/-- `isMergedToHead` (main.go lines 72-87). Every call runs the merged-branch
query once. First component: the returned Bool (`false` on query failure,
otherwise membership of the trimmed branch among the trimmed lines of the
query's split output). Second component: whether the warning was printed to
stderr (exactly the query-failure case). -/
def isMergedToHead (env : GitEnv) (branch : List Char) : Bool × Bool :=
  match env.mergedQueryResult with
  | none => (false, true)
  | some output =>
    ((splitOnChar ('\n') output).any (fun mb => trimSpace mb == trimSpace branch), false)

/-- ANSI color constants (main.go lines 23-28). -/
def colorGreen : List Char := str ("\x1b[32m")

def colorRed : List Char := str ("\x1b[31m")

def colorYellow : List Char := str ("\x1b[33m")

def colorReset : List Char := str ("\x1b[0m")

/-- Modelled from the spec: the localized status indicators live in
`locales/en.json` / `locales/ja.json`, which are embedded at build time and are
not under `src/`. Per the README ("(merged)", "(unmerged)", "(protected)") and
the comment at main.go line 45, an indicator is a parenthesized tag; these are
the English values. -/
def mergedIndicator : List Char := str ("(merged)")

/-- Modelled from the spec: see `mergedIndicator`. -/
def unmergedIndicator : List Char := str ("(unmerged)")

/-- Modelled from the spec: see `mergedIndicator`. -/
def protectedIndicator : List Char := str ("(protected)")

/-- Modelled from the spec: the shape shared by every status indicator the
classifier uses (localized values included): a parenthesized tag containing no
escape character. -/
def indicatorShape (ind : List Char) : Prop :=
  (∃ t, ind = '(' :: t) ∧ ∀ c ∈ ind, c ≠ esc

/-- The decorated fzf line (main.go line 205):
`fmt.Sprintf("%s%s %s%s", color, trimmedBranch, indicator, ColorReset)`. -/
def decorate (color txt ind : List Char) : List Char :=
  color ++ txt ++ ' ' :: ind ++ colorReset

/-- The status the classifier assigns to a candidate branch. -/
inductive BranchStatus where
  | prot
  | merged
  | unmerged
deriving DecidableEq

/-- Outcome of classifying one candidate: its decorated line, its status, how
many times the merged-branch query was run for it, and how many warnings were
printed. -/
structure ClassifyResult where
  item : List Char
  status : BranchStatus
  queryInvocations : Nat
  warnings : Nat
deriving DecidableEq

/-- The body of the listing loop for one candidate (main.go lines 195-205),
after trimming and filtering. -/
def classifyCandidate (env : GitEnv) (t : List Char) : ClassifyResult :=
  if isProtectedBranch t then
    ⟨decorate colorYellow t protectedIndicator, .prot, 0, 0⟩
  else
    let q := isMergedToHead env t
    if q.1 then
      ⟨decorate colorGreen t mergedIndicator, .merged, 1, if q.2 then 1 else 0⟩
    else
      ⟨decorate colorRed t unmergedIndicator, .unmerged, 1, if q.2 then 1 else 0⟩

/-- The listing loop (main.go lines 189-207): trim each raw line, keep the
candidates, decorate each in listing order; also the total number of
merged-branch query invocations the loop performs. -/
def buildFzfItems (env : GitEnv) : List (List Char) → List (List Char) × Nat
  | [] => ([], 0)
  | line :: rest =>
    let t := trimSpace line
    let acc := buildFzfItems env rest
    if isCandidate t then
      let r := classifyCandidate env t
      (r.item :: acc.1, r.queryInvocations + acc.2)
    else acc

/-- The trimmed candidate lines of a raw listing that are not protected:
exactly the branches for which the loop consults the merged-branch query. -/
def nonProtectedCandidates (rawLines : List (List Char)) : List (List Char) :=
  (rawLines.map trimSpace).filter (fun t => isCandidate t && !isProtectedBranch t)

/-- The planner loop (main.go lines 263-272): clean each selected line, then
partition into (`branchesToDelete`, `protectedBranchesSelected`), both in
selection order. -/
def planSelection : List (List Char) → List (List Char) × List (List Char)
  | [] => ([], [])
  | item :: rest =>
    let c := cleanBranchName item
    let acc := planSelection rest
    if isProtectedBranch c then (acc.1, c :: acc.2) else (c :: acc.1, acc.2)

/-- One reported outcome of the deletion loop (main.go lines 324-350): a
skipped invalid-format branch, or a per-branch success or failure message,
each carrying the captured combined output of `git push <remote> --delete
<name>`. -/
inductive DeleteEvent where
  | invalidFormat (branch : List Char)
  | success (remote name out : List Char)
  | failure (remote name out : List Char)
deriving DecidableEq

/-- The deletion loop (main.go lines 324-350). `gitPush` is the external
`git push <remote> --delete <name>` operation: it returns whether the process
succeeded and its captured combined output. -/
def execDeletions (gitPush : List Char → List Char → Bool × List Char) :
    List (List Char) → List DeleteEvent
  | [] => []
  | branch :: rest =>
    let parts := splitN2 (str ("/")) branch
    if parts.length = 2 then
      let r := gitPush (parts.getD 0 []) (parts.getD 1 [])
      (if r.1 then DeleteEvent.success (parts.getD 0 []) (parts.getD 1 []) r.2
       else DeleteEvent.failure (parts.getD 0 []) (parts.getD 1 []) r.2) ::
        execDeletions gitPush rest
    else DeleteEvent.invalidFormat branch :: execDeletions gitPush rest

/-- Observable outcome of the confirm-then-delete phase: the reported deletion
events, whether the cancellation message was printed, and the process exit
status. -/
structure DeletePhaseResult where
  events : List DeleteEvent
  cancelled : Bool
  exitCode : Nat
deriving DecidableEq

/-- The confirmation gate and deletion loop (main.go lines 309-350): when
`confirm` is false the cancellation message is printed and the process exits 0
with no deletion attempted; otherwise the deletion loop runs and the program
ends with status 0. -/
def confirmAndDelete (confirm : Bool) (gitPush : List Char → List Char → Bool × List Char)
    (branchesToDelete : List (List Char)) : DeletePhaseResult :=
  if !confirm then ⟨[], true, 0⟩
  else ⟨execDeletions gitPush branchesToDelete, false, 0⟩

/-- The confirmation prompt (main.go lines 310-315): `var confirm bool` starts
at its zero value `false`; `survey.AskOne` writes the user's answer into it on
success and leaves it unchanged on error (the error return is discarded).
`none` models a failed prompt. -/
def promptConfirm (promptOutcome : Option Bool) : Bool :=
  match promptOutcome with
  | some b => b
  | none => false

/-- A failed merged-branch query. -/
def envFail : GitEnv := ⟨none⟩

/-- The raw branch list of the spec's Branch Lister test: a line needing a
trim, and the remote's symbolic HEAD pointer line as `git branch -r` prints
it. -/
def c2raw : List (List Char) := [str ("  origin/foo"), str ("origin/HEAD -> origin/main")]

/-- Input on which stripping ANSI codes splices together a new ANSI code: the
removal of the inner `ESC[0m` joins `ESC[` to `0m`. -/
def c3ex : List Char := [esc, '[', esc, '[', '0', 'm', '0', 'm']

/-- The selection of the spec's end-to-end test: the decorated lines for
`origin/main` (protected) and `origin/feature-x` (merged), as fzf returns
them. -/
def c7selected : List (List Char) :=
  [decorate colorYellow (str ("origin/main")) protectedIndicator,
   decorate colorGreen (str ("origin/feature-x")) mergedIndicator]

/-- A delete operation that always succeeds. -/
def c7gitPush : List Char → List Char → Bool × List Char :=
  fun _ _ => (true, str ("deleted"))

/-- A delete operation that fails on `alpha` and succeeds otherwise. -/
def c8gitPush : List Char → List Char → Bool × List Char :=
  fun _ name => if name = str ("alpha") then (false, str ("remote rejected")) else (true, str ("ok"))

/-- A successful merged-branch query whose output lists `origin/alpha`, in the
indented multi-line form `git branch -r --merged HEAD` produces. -/
def c1env : GitEnv := ⟨some (str ("  origin/alpha"))⟩

theorem stripAnsiFuel_eq : ∀ (f g : Nat) (s : List Char), s.length ≤ f → s.length ≤ g →
    stripAnsiFuel f s = stripAnsiFuel g s := by
  intro f
  induction f with
  | zero =>
    intro g s hf _
    have hs : s = [] := List.eq_nil_of_length_eq_zero (Nat.le_zero.mp hf)
    subst hs
    cases g <;> rfl
  | succ f ih =>
    intro g s hf hg
    cases s with
    | nil => cases g <;> rfl
    | cons c rest =>
      cases g with
      | zero => simp at hg
      | succ g' =>
        have hf' : rest.length ≤ f := by simpa using hf
        have hg' : rest.length ≤ g' := by simpa using hg
        simp only [stripAnsiFuel]
        cases h : ansiMatchLen (c :: rest) with
        | some n =>
          apply ih
          · calc (rest.drop (n - 1)).length ≤ rest.length := by
                  rw [List.length_drop]; omega
              _ ≤ f := hf'
          · calc (rest.drop (n - 1)).length ≤ rest.length := by
                  rw [List.length_drop]; omega
              _ ≤ g' := hg'
        | none => rw [ih g' rest hf' hg']

theorem ansiMatchLen_none (c : Char) (rest : List Char) (h : c ≠ esc) :
    ansiMatchLen (c :: rest) = none := by
  cases rest with
  | nil => rfl
  | cons c2 r2 =>
    simp only [ansiMatchLen]
    rw [if_neg]
    intro hc
    exact h hc.1

theorem stripAnsiFuel_noEsc : ∀ (xs : List Char) (f : Nat) (ys : List Char),
    (∀ c ∈ xs, c ≠ esc) → stripAnsiFuel (xs.length + f) (xs ++ ys) = xs ++ stripAnsiFuel f ys := by
  intro xs
  induction xs with
  | nil => intro f ys _; simp
  | cons c xs ih =>
    intro f ys h
    have hc : c ≠ esc := h c (List.mem_cons_self c xs)
    have hxs : ∀ a ∈ xs, a ≠ esc := fun a ha => h a (List.mem_cons_of_mem _ ha)
    have hlen : (c :: xs).length + f = (xs.length + f) + 1 := by
      simp [List.length_cons]; omega
    rw [hlen]
    show stripAnsiFuel ((xs.length + f) + 1) (c :: (xs ++ ys)) = c :: (xs ++ stripAnsiFuel f ys)
    simp only [stripAnsiFuel, ansiMatchLen_none c _ hc]
    rw [ih f ys hxs]

theorem takeWhile_all_append (p : Char → Bool) (m : Char) (hm : p m = false) :
    ∀ (run t : List Char), (∀ c ∈ run, p c = true) →
      (run ++ m :: t).takeWhile p = run := by
  intro run
  induction run with
  | nil => intro t _; simp [List.takeWhile_cons, hm]
  | cons c r ih =>
    intro t h
    have hc : p c = true := h c (List.mem_cons_self c r)
    have hr : ∀ a ∈ r, p a = true := fun a ha => h a (List.mem_cons_of_mem _ ha)
    simp [List.takeWhile_cons, hc, ih t hr]

theorem ansiMatchLen_code (run t : List Char) (h : ∀ c ∈ run, isAnsiBody c = true) :
    ansiMatchLen (esc :: '[' :: (run ++ 'm' :: t)) = some (run.length + 3) := by
  have htw : (run ++ 'm' :: t).takeWhile isAnsiBody = run :=
    takeWhile_all_append isAnsiBody 'm' (by decide) run t h
  simp only [ansiMatchLen, htw, if_pos (And.intro rfl rfl)]
  rw [List.drop_left]
  simp

theorem stripAnsi_code (run t : List Char) (h : ∀ c ∈ run, isAnsiBody c = true) :
    stripAnsi (esc :: '[' :: (run ++ 'm' :: t)) = stripAnsi t := by
  unfold stripAnsi
  have hlen : (esc :: '[' :: (run ++ 'm' :: t)).length = (t.length + run.length + 2) + 1 := by
    simp [List.length_append]; omega
  rw [hlen]
  simp only [stripAnsiFuel, ansiMatchLen_code run t h]
  have hdrop : ('[' :: (run ++ 'm' :: t)).drop (run.length + 3 - 1) = t := by
    have h1 : run.length + 3 - 1 = (run.length + 1) + 1 := by omega
    rw [h1, List.drop_succ_cons]
    have h2 : run ++ 'm' :: t = (run ++ ['m']) ++ t := by simp
    have h3 : run.length + 1 = (run ++ ['m']).length := by simp
    rw [h2, h3, List.drop_left]
  rw [hdrop]
  exact stripAnsiFuel_eq _ _ t (by omega) (by omega)

theorem stripAnsi_noEsc_append (xs ys : List Char) (h : ∀ c ∈ xs, c ≠ esc) :
    stripAnsi (xs ++ ys) = xs ++ stripAnsi ys := by
  unfold stripAnsi
  rw [List.length_append]
  exact stripAnsiFuel_noEsc xs ys.length ys h

theorem stripAnsi_reset : stripAnsi colorReset = [] := by decide

theorem stripAnsi_color_append (t color : List Char)
    (hc : color = colorYellow ∨ color = colorGreen ∨ color = colorRed) :
    stripAnsi (color ++ t) = stripAnsi t := by
  rcases hc with h | h | h <;> subst h
  · exact stripAnsi_code ['3', '3'] t (by decide)
  · exact stripAnsi_code ['3', '2'] t (by decide)
  · exact stripAnsi_code ['3', '1'] t (by decide)

theorem isPre_nil_left (l : List Char) : isPre [] l = true := by
  cases l <;> rfl

theorem isPre_nil_iff (p : List Char) : isPre p [] = true ↔ p = [] := by
  cases p with
  | nil => simp [isPre]
  | cons a as => simp [isPre]

theorem isPre_append (p : List Char) : ∀ (t w : List Char),
    isPre p t = true → isPre p (t ++ w) = true := by
  induction p with
  | nil => intro t w _; exact isPre_nil_left _
  | cons a as ih =>
    intro t w h
    cases t with
    | nil => simp [isPre] at h
    | cons b bs =>
      simp only [isPre, Bool.and_eq_true] at h
      simp only [List.cons_append, isPre, Bool.and_eq_true]
      exact ⟨h.1, ih bs w h.2⟩

theorem takeBefore_decomp (pat : List Char) : ∀ l : List Char,
    ∃ w, l = takeBefore pat l ++ w := by
  intro l
  induction l with
  | nil => exact ⟨[], rfl⟩
  | cons c cs ih =>
    cases h : isPre pat (c :: cs) with
    | true => exact ⟨c :: cs, by simp [takeBefore, h]⟩
    | false =>
      obtain ⟨w, hw⟩ := ih
      exact ⟨w, by simp only [takeBefore, h]; simpa using congrArg (c :: ·) hw⟩

theorem hasPat_takeBefore (pat : List Char) (hne : pat ≠ []) :
    ∀ l, hasPat pat (takeBefore pat l) = false := by
  obtain ⟨p0, ps, hp⟩ := List.exists_cons_of_ne_nil hne
  subst hp
  intro l
  induction l with
  | nil => simp [takeBefore, hasPat, isPre]
  | cons c cs ih =>
    cases h : isPre (p0 :: ps) (c :: cs) with
    | true =>
      have ht : takeBefore (p0 :: ps) (c :: cs) = [] := by
        simp [takeBefore, h]
      rw [ht]
      simp [hasPat, isPre]
    | false =>
      simp only [takeBefore, h, if_false, Bool.false_eq_true, hasPat, Bool.or_eq_false_iff]
      refine ⟨?_, ih⟩
      cases hh : isPre (p0 :: ps) (c :: takeBefore (p0 :: ps) cs) with
      | false => rfl
      | true =>
        exfalso
        simp only [isPre, Bool.and_eq_true] at hh
        obtain ⟨w, hw⟩ := takeBefore_decomp (p0 :: ps) cs
        have : isPre ps cs = true := by
          rw [hw]
          exact isPre_append ps _ w hh.2
        have : isPre (p0 :: ps) (c :: cs) = true := by
          simp only [isPre, Bool.and_eq_true]
          exact ⟨hh.1, this⟩
        rw [h] at this
        exact Bool.false_ne_true this

theorem takeBefore_of_no_occ (pat : List Char) : ∀ l, hasPat pat l = false →
    takeBefore pat l = l := by
  intro l
  induction l with
  | nil => intro _; rfl
  | cons c cs ih =>
    intro h
    simp only [hasPat, Bool.or_eq_false_iff] at h
    simp only [takeBefore, h.1, if_false, Bool.false_eq_true]
    rw [ih h.2]

theorem hasPat_append_right (pat : List Char) : ∀ t w, hasPat pat t = true →
    hasPat pat (t ++ w) = true := by
  intro t
  induction t with
  | nil =>
    intro w h
    simp only [hasPat] at h
    have : pat = [] := (isPre_nil_iff pat).mp h
    subst this
    cases w with
    | nil => rfl
    | cons c cs => simp [hasPat, isPre_nil_left]
  | cons c t ih =>
    intro w h
    simp only [hasPat, Bool.or_eq_true] at h
    simp only [List.cons_append, hasPat, Bool.or_eq_true]
    rcases h with h | h
    · exact Or.inl (isPre_append pat (c :: t) w h)
    · exact Or.inr (ih w h)

theorem hasPat_append_left (pat : List Char) : ∀ a t, hasPat pat t = true →
    hasPat pat (a ++ t) = true := by
  intro a
  induction a with
  | nil => intro t h; simpa using h
  | cons x a ih =>
    intro t h
    simp only [List.cons_append, hasPat, Bool.or_eq_true]
    exact Or.inr (ih t h)

theorem dropWhile_eq_self_of_decomp (p : Char → Bool) (a w : List Char)
    (h : List.dropWhile p (a ++ w) = a ++ w) : List.dropWhile p a = a := by
  cases a with
  | nil => rfl
  | cons c a' =>
    cases hp : p c with
    | false => rw [List.dropWhile_cons, if_neg (by simp [hp])]
    | true =>
      exfalso
      rw [List.cons_append, List.dropWhile_cons, if_pos (by simp [hp])] at h
      have hle : (List.dropWhile p (a' ++ w)).length ≤ (a' ++ w).length :=
        (List.dropWhile_suffix p).length_le
      rw [h] at hle
      simp at hle

theorem trimSpace_decomp (s : List Char) : ∃ w1 w2, s = w1 ++ (trimSpace s ++ w2) := by
  obtain ⟨w1, hw1⟩ := List.dropWhile_suffix (l := s) isGoSpace
  obtain ⟨w2, hw2⟩ := List.rdropWhile_prefix isGoSpace (s.dropWhile isGoSpace)
  refine ⟨w1, w2, ?_⟩
  show s = w1 ++ (List.rdropWhile isGoSpace (List.dropWhile isGoSpace s) ++ w2)
  rw [hw2, hw1]

theorem trimSpace_idem (s : List Char) : trimSpace (trimSpace s) = trimSpace s := by
  have h1 : List.dropWhile isGoSpace (List.dropWhile isGoSpace s) =
      List.dropWhile isGoSpace s := List.dropWhile_idempotent isGoSpace s
  obtain ⟨w2, hw2⟩ := List.rdropWhile_prefix isGoSpace (s.dropWhile isGoSpace)
  have h2 : List.dropWhile isGoSpace (trimSpace s) = trimSpace s := by
    apply dropWhile_eq_self_of_decomp isGoSpace (trimSpace s) w2
    show List.dropWhile isGoSpace
        (List.rdropWhile isGoSpace (List.dropWhile isGoSpace s) ++ w2) =
      List.rdropWhile isGoSpace (List.dropWhile isGoSpace s) ++ w2
    rw [hw2]
    exact h1
  show List.rdropWhile isGoSpace (List.dropWhile isGoSpace (trimSpace s)) = trimSpace s
  rw [h2]
  exact List.rdropWhile_idempotent isGoSpace _

theorem hasPat_trimSpace (pat s : List Char) (h : hasPat pat s = false) :
    hasPat pat (trimSpace s) = false := by
  cases hh : hasPat pat (trimSpace s) with
  | false => rfl
  | true =>
    exfalso
    obtain ⟨w1, w2, hd⟩ := trimSpace_decomp s
    have : hasPat pat s = true := by
      rw [hd]
      exact hasPat_append_left pat w1 _ (hasPat_append_right pat _ w2 hh)
    rw [h] at this
    exact Bool.false_ne_true this

theorem dropWhile_of_none (p : Char → Bool) (l : List Char) (h : ∀ c ∈ l, p c = false) :
    List.dropWhile p l = l := by
  cases l with
  | nil => rfl
  | cons c cs =>
    rw [List.dropWhile_cons, if_neg]
    simp [h c (List.mem_cons_self c cs)]

theorem trimSpace_of_noSpace (s : List Char) (h : ∀ c ∈ s, isGoSpace c = false) :
    trimSpace s = s := by
  unfold trimSpace List.rdropWhile
  rw [dropWhile_of_none isGoSpace s h]
  rw [dropWhile_of_none isGoSpace s.reverse (fun c hc => h c (List.mem_reverse.mp hc))]
  exact List.reverse_reverse s

theorem takeBefore_boundary : ∀ (b w : List Char), (∀ c ∈ b, c ≠ ' ') →
    takeBefore splitPat (b ++ (splitPat ++ w)) = b := by
  intro b
  induction b with
  | nil =>
    intro w _
    show takeBefore splitPat (' ' :: '(' :: w) = []
    simp [takeBefore, splitPat, isPre, isPre_nil_left]
  | cons c b' ih =>
    intro w h
    have hc : c ≠ ' ' := h c (List.mem_cons_self c b')
    have hb' : ∀ a ∈ b', a ≠ ' ' := fun a ha => h a (List.mem_cons_of_mem _ ha)
    show takeBefore splitPat (c :: (b' ++ (splitPat ++ w))) = c :: b'
    have hpre : isPre splitPat (c :: (b' ++ (splitPat ++ w))) = false := by
      show isPre [' ', '('] _ = false
      simp only [isPre, Bool.and_eq_false_iff]
      left
      simp [Ne.symm hc]
    simp only [takeBefore, hpre, if_false, Bool.false_eq_true]
    rw [ih w hb']

theorem hasPat_slash : ∀ l : List Char, hasPat (str ("/")) l = (tailAfterSlash l).isSome := by
  intro l
  induction l with
  | nil => rfl
  | cons c cs ih =>
    show (isPre ['/'] (c :: cs) || hasPat ['/'] cs) = _
    by_cases hc : c = '/'
    · subst hc
      simp [isPre, isPre_nil_left, tailAfterSlash]
    · have h1 : isPre ['/'] (c :: cs) = false := by
        simp [isPre, Ne.symm hc]
      rw [h1]
      simp only [Bool.false_or, tailAfterSlash, if_neg hc]
      exact ih

theorem afterPat_slash : ∀ (l t : List Char), tailAfterSlash l = some t →
    afterPat (str ("/")) l = t := by
  intro l
  induction l with
  | nil => intro t h; simp [tailAfterSlash] at h
  | cons c cs ih =>
    intro t h
    by_cases hc : c = '/'
    · subst hc
      have h2 : cs = t := by simpa [tailAfterSlash] using h
      subst h2
      show afterPat ['/'] ('/' :: cs) = cs
      have : isPre ['/'] ('/' :: cs) = true := by simp [isPre, isPre_nil_left]
      simp [afterPat, this]
    · simp only [tailAfterSlash, if_neg hc] at h
      have h1 : isPre ['/'] (c :: cs) = false := by
        simp [isPre, Ne.symm hc]
      show afterPat ['/'] (c :: cs) = t
      simp only [afterPat, h1, if_false, Bool.false_eq_true]
      exact ih t h

theorem queryCount_classify (env : GitEnv) (t : List Char) :
    (classifyCandidate env t).queryInvocations = if isProtectedBranch t then 0 else 1 := by
  unfold classifyCandidate
  by_cases h : isProtectedBranch t = true
  · simp [h]
  · simp only [Bool.not_eq_true] at h
    simp only [h, Bool.false_eq_true, if_false]
    cases hq : (isMergedToHead env t).1 <;> simp [hq]

theorem items_length (env : GitEnv) : ∀ raw : List (List Char),
    ((buildFzfItems env raw).1).length = ((raw.map trimSpace).filter isCandidate).length := by
  intro raw
  induction raw with
  | nil => rfl
  | cons line rest ih =>
    simp only [buildFzfItems, List.map_cons, List.filter_cons]
    cases hc : isCandidate (trimSpace line) with
    | true => simp [hc, ih]
    | false => simp [hc, ih]

theorem execDeletions_length (gitPush : List Char → List Char → Bool × List Char) :
    ∀ l, (execDeletions gitPush l).length = l.length := by
  intro l
  induction l with
  | nil => rfl
  | cons b rest ih =>
    simp only [execDeletions]
    by_cases h : (splitN2 (str ("/")) b).length = 2
    · simp only [h, if_true]
      split <;> simp [ih]
    · simp [h, ih]

theorem isProtectedBranch_eq (s : List Char) :
    isProtectedBranch s = (namePortion s == str ("main") || namePortion s == str ("master")) := by
  cases h : hasPat (str ("/")) s with
  | false =>
    have hts : tailAfterSlash s = none := by
      have h1 := hasPat_slash s
      rw [h] at h1
      cases hx : tailAfterSlash s with
      | none => rfl
      | some t => rw [hx] at h1; simp at h1
    simp [isProtectedBranch, splitN2, h, protectedNames, namePortion, hts]
  | true =>
    have h1 : (tailAfterSlash s).isSome = true := by rw [← hasPat_slash]; exact h
    obtain ⟨t, ht⟩ := Option.isSome_iff_exists.mp h1
    have hap := afterPat_slash s t ht
    simp [isProtectedBranch, splitN2, h, protectedNames, namePortion, ht, hap]

/-- C5: `isProtectedBranch` returns true if and only if the portion of its
argument after the first `"/"` separator (the whole argument when no separator
is present) is exactly, case-sensitively, `"main"` or `"master"`; and the three
concrete instances of the spec hold. -/
theorem C5_protected_iff :
    (∀ s, isProtectedBranch s = true ↔ specProtected s) ∧
    isProtectedBranch (str ("origin/main")) = true ∧
    isProtectedBranch (str ("origin/main2")) = false ∧
    isProtectedBranch (str ("main")) = true := by
  refine ⟨?_, by decide, by decide, by decide⟩
  intro s
  rw [isProtectedBranch_eq]
  unfold specProtected
  simp [Bool.or_eq_true, beq_iff_eq]

/-- C1 (counterexample): in a run whose raw listing holds two non-protected
branches, the merged-branch query is invoked twice, not exactly once as the
claim states. -/
theorem C1_counterexample :
    (buildFzfItems c1env [str ("origin/alpha"), str ("origin/beta")]).2 = 2 ∧
    ¬ (buildFzfItems c1env [str ("origin/alpha"), str ("origin/beta")]).2 = 1 := by
  decide

/-- C1 (amended): the merged-branch query is invoked once per non-protected
candidate branch of the listing loop (protected branches and filtered lines
invoke it zero times), in every run. -/
theorem C1_amended (env : GitEnv) (raw : List (List Char)) :
    (buildFzfItems env raw).2 = (nonProtectedCandidates raw).length := by
  induction raw with
  | nil => rfl
  | cons line rest ih =>
    simp only [buildFzfItems, nonProtectedCandidates, List.map_cons, List.filter_cons] at ih ⊢
    cases hc : isCandidate (trimSpace line) with
    | false => simp [hc, ih]
    | true =>
      cases hp : isProtectedBranch (trimSpace line) with
      | false => simp [hc, hp, queryCount_classify, ih, Nat.add_comm]
      | true => simp [hc, hp, queryCount_classify, ih]

/-- C2: on the raw branch list containing `"  origin/foo"` and the remote's
symbolic HEAD pointer line `"origin/HEAD -> origin/main"` as `git branch -r`
prints it, the first line is trimmed as claimed, but the HEAD pointer line
survives the filter (it does not end in `"/HEAD"`), so the candidate list DOES
contain a decorated line derived from it — contradicting the claim. -/
theorem C2_head_pointer_kept :
    trimSpace (str ("  origin/foo")) = str ("origin/foo") ∧
    isCandidate (str ("origin/HEAD -> origin/main")) = true ∧
    (buildFzfItems envFail c2raw).1 =
      [decorate colorRed (str ("origin/foo")) unmergedIndicator,
       decorate colorRed (str ("origin/HEAD -> origin/main")) unmergedIndicator] ∧
    cleanBranchName ((buildFzfItems envFail c2raw).1.getD 1 []) =
      str ("origin/HEAD -> origin/main") := by
  decide

/-- C3 (counterexample): `cleanBranchName` is not idempotent: on the input
`ESC [ ESC [ 0 m 0 m`, one cleaning removes the inner `ESC[0m` and splices the
surrounding characters into a new color code `ESC[0m`, which a second cleaning
removes. -/
theorem C3_counterexample :
    cleanBranchName c3ex = [esc, '[', '0', 'm'] ∧
    cleanBranchName (cleanBranchName c3ex) = [] ∧
    ¬ cleanBranchName (cleanBranchName c3ex) = cleanBranchName c3ex := by
  decide

/-- C3 (amended): `cleanBranchName` is idempotent on every input whose cleaned
form contains no further ANSI color code (a second ANSI strip is a no-op on
it); only inputs where removing a color code splices together a new one can
violate idempotence. -/
theorem C3_amended (x : List Char)
    (h : stripAnsi (cleanBranchName x) = cleanBranchName x) :
    cleanBranchName (cleanBranchName x) = cleanBranchName x := by
  have h1 : hasPat splitPat (takeBefore splitPat (stripAnsi x)) = false :=
    hasPat_takeBefore splitPat (by decide) _
  have h2 : hasPat splitPat (cleanBranchName x) = false :=
    hasPat_trimSpace _ _ h1
  show trimSpace (takeBefore splitPat (stripAnsi (cleanBranchName x))) = cleanBranchName x
  rw [h, takeBefore_of_no_occ _ _ h2]
  show trimSpace (trimSpace (takeBefore splitPat (stripAnsi x))) = _
  exact trimSpace_idem _

theorem C3_witness :
    stripAnsi (cleanBranchName (str ("origin/foo (merged)"))) =
      cleanBranchName (str ("origin/foo (merged)")) ∧
    cleanBranchName (cleanBranchName (str ("origin/foo (merged)"))) =
      cleanBranchName (str ("origin/foo (merged)")) :=
  ⟨by decide, C3_amended _ (by decide)⟩

/-- C4: decoration is reversible: for every trimmed branch identity string
(a git refname contains no whitespace and no escape character) and every
status indicator of the classifier (a parenthesized, escape-free tag),
`cleanBranchName` applied to the decorated line — color escape, the branch,
a space, the indicator, the reset escape — returns exactly the branch. -/
theorem C4_decoration_reversible (b ind color : List Char)
    (hb : ∀ c ∈ b, isGoSpace c = false ∧ c ≠ esc)
    (hind : indicatorShape ind)
    (hcolor : color = colorYellow ∨ color = colorGreen ∨ color = colorRed) :
    cleanBranchName (decorate color b ind) = b := by
  obtain ⟨⟨t, ht⟩, hindEsc⟩ := hind
  have hxsEsc : ∀ c ∈ b ++ ' ' :: ind, c ≠ esc := by
    intro c hc
    rcases List.mem_append.mp hc with hcb | hci
    · exact (hb c hcb).2
    · rcases List.mem_cons.mp hci with hsp | hcin
      · subst hsp; decide
      · exact hindEsc c hcin
  have hstrip : stripAnsi (decorate color b ind) = b ++ ' ' :: ind := by
    unfold decorate
    rw [List.append_assoc color b, List.append_assoc color]
    rw [stripAnsi_color_append _ color hcolor]
    rw [stripAnsi_noEsc_append _ _ hxsEsc, stripAnsi_reset, List.append_nil]
  show trimSpace (takeBefore splitPat (stripAnsi (decorate color b ind))) = b
  rw [hstrip]
  have hshape : b ++ ' ' :: ind = b ++ (splitPat ++ t) := by
    subst ht; rfl
  rw [hshape, takeBefore_boundary b t ?hsp]
  case hsp =>
    intro c hc
    intro hceq
    have := (hb c hc).1
    rw [hceq] at this
    exact absurd this (by decide)
  exact trimSpace_of_noSpace b (fun c hc => (hb c hc).1)

theorem C4_witness :
    (∀ c ∈ str ("origin/feature-x"), isGoSpace c = false ∧ c ≠ esc) ∧
    indicatorShape mergedIndicator ∧
    cleanBranchName (decorate colorGreen (str ("origin/feature-x")) mergedIndicator) =
      str ("origin/feature-x") :=
  ⟨by decide, ⟨⟨str ("merged)"), rfl⟩, by decide⟩,
   C4_decoration_reversible (str ("origin/feature-x")) mergedIndicator colorGreen
     (by decide) ⟨⟨str ("merged)"), rfl⟩, by decide⟩ (Or.inr (Or.inl rfl))⟩

/-- C6: when the merged-branch query fails, `isMergedToHead` prints the warning
and returns false, every non-protected candidate is classified Unmerged (none
is marked Merged), and the listing loop still emits one decorated line per
candidate (the run does not abort). -/
theorem C6_query_failure_fail_open (env : GitEnv) (h : env.mergedQueryResult = none) :
    (∀ b, isMergedToHead env b = (false, true)) ∧
    (∀ t, isProtectedBranch t = false → (classifyCandidate env t).status = BranchStatus.unmerged) ∧
    (∀ raw, ((buildFzfItems env raw).1).length =
      ((raw.map trimSpace).filter isCandidate).length) := by
  refine ⟨?_, ?_, fun raw => items_length env raw⟩
  · intro b
    unfold isMergedToHead
    rw [h]
  · intro t hp
    have hm : isMergedToHead env t = (false, true) := by
      unfold isMergedToHead
      rw [h]
    unfold classifyCandidate
    simp [hp, hm]

theorem C6_witness :
    isMergedToHead envFail (str ("origin/foo")) = (false, true) ∧
    (classifyCandidate envFail (str ("origin/foo"))).status = BranchStatus.unmerged :=
  ⟨(C6_query_failure_fail_open envFail rfl).1 _,
   (C6_query_failure_fail_open envFail rfl).2.1 _ (by decide)⟩

/-- C7: for the selection of the decorated lines for `origin/main` (protected)
and `origin/feature-x` (merged), the planner partitions them into exactly
`toDelete = [origin/feature-x]` and `skippedProtected = [origin/main]` (one
skip notice); with confirmation `true`, the executor performs exactly one
delete operation, for remote `origin` and branch `feature-x`, and reports one
success message with the captured output. -/
theorem C7_end_to_end :
    planSelection c7selected = ([str ("origin/feature-x")], [str ("origin/main")]) ∧
    (planSelection c7selected).2.length = 1 ∧
    confirmAndDelete true c7gitPush (planSelection c7selected).1 =
      ⟨[DeleteEvent.success (str ("origin")) (str ("feature-x")) (str ("deleted"))], false, 0⟩ := by
  decide

/-- C8: the deletion loop is best-effort: it produces exactly one reported
event per entry of every `toDelete` list under every delete oracle, and on the
concrete two-branch list whose first delete fails and second succeeds, both
are attempted and the output reports exactly one failure and one success, each
with the captured output. -/
theorem C8_best_effort :
    (∀ (gitPush : List Char → List Char → Bool × List Char) (l : List (List Char)),
      (execDeletions gitPush l).length = l.length) ∧
    execDeletions c8gitPush [str ("origin/alpha"), str ("origin/beta")] =
      [DeleteEvent.failure (str ("origin")) (str ("alpha")) (str ("remote rejected")),
       DeleteEvent.success (str ("origin")) (str ("beta")) (str ("ok"))] :=
  ⟨fun g l => execDeletions_length g l, by decide⟩

/-- C9: deletion is opt-in: for every non-empty `toDelete` list, a negative or
default answer to the confirmation prompt yields no delete invocation, the
cancellation message, and exit status 0. -/
theorem C9_cancel_is_noop (gitPush : List Char → List Char → Bool × List Char)
    (branchesToDelete : List (List Char)) (ans : Option Bool)
    (_hne : branchesToDelete ≠ [])
    (hans : ans = some false ∨ ans = none) :
    confirmAndDelete (promptConfirm ans) gitPush branchesToDelete = ⟨[], true, 0⟩ := by
  rcases hans with h | h <;> subst h <;> rfl

theorem C9_witness :
    (([str ("origin/x")] : List (List Char)) ≠ []) ∧
    confirmAndDelete (promptConfirm (some false)) c7gitPush [str ("origin/x")] = ⟨[], true, 0⟩ :=
  ⟨by decide,
   C9_cancel_is_noop c7gitPush [str ("origin/x")] (some false) (by decide) (Or.inl rfl)⟩

/-- C10: a failed confirmation prompt behaves exactly as the default "no": the
confirm flag stays at its zero value false, the cancellation message is
printed, the process exits 0, and no delete operation is invoked. -/
theorem C10_prompt_error_no_delete (gitPush : List Char → List Char → Bool × List Char)
    (branchesToDelete : List (List Char)) :
    promptConfirm none = false ∧
    confirmAndDelete (promptConfirm none) gitPush branchesToDelete = ⟨[], true, 0⟩ :=
  ⟨rfl, rfl⟩

end GitRBM
